import Mathlib

/-!
Verification of the ultimate-morpion game engine.

A shallow embedding of the core of the `ultimate-morpion` repository
(`src/morpion.rs` and `src/ai.rs`) together with proofs checking the
natural-language specification against the code.

Modelling conventions:
* Rust `isize` is modelled as `Int`; the constants `isize::MIN` / `isize::MAX`
  are the explicit integers `-(2^63)` and `2^63 - 1`.
* The fixed arrays `[CellState; 9]` and `[[CellState; 9]; 9]` are modelled as
  total functions `Fin 9 → CellState` and `Fin 9 → Fin 9 → CellState`;
  in-place mutation becomes `Function.update`.
* `&mut self` methods become pure functions returning the updated `Morpion`.
* The random `noise(2)` call in `ai_move` is modelled as an explicit stream
  `Nat → Int` of noise values, one per loop iteration.
-/

/-- The `Player` from `morpion.rs`: the two players `X` and `O`. -/
inductive Player
  | X
  | O
deriving DecidableEq, Repr

/-- The `Player::other` from `morpion.rs`. -/
def Player.other : Player → Player
  | Player.X => Player.O
  | Player.O => Player.X

/-- The `CellState` from `morpion.rs`. -/
inductive CellState
  | Occupied (p : Player)
  | Free
  | Tie
deriving DecidableEq, Repr

/-- The `PlayingState` from `morpion.rs`. -/
inductive PlayingState
  | Tie
  | Win (p : Player)
  | Continue
deriving DecidableEq, Repr

/-- The `Board` from `morpion.rs`: 9 sub-boards of 9 cells, plus the aggregate
`states` array summarising each sub-board. -/
structure Board where
  cells : Fin 9 → Fin 9 → CellState
  states : Fin 9 → CellState

instance : DecidableEq Board := fun a b =>
  decidable_of_iff (a.cells = b.cells ∧ a.states = b.states)
    (by cases a; cases b; simp)

/-- The `Morpion` from `morpion.rs`: full game state. -/
structure Morpion where
  board : Board
  player : Player
  state : PlayingState
  focused_big_cell : Option (Fin 9)

instance : DecidableEq Morpion := fun a b =>
  decidable_of_iff
    (a.board = b.board ∧ a.player = b.player ∧ a.state = b.state ∧
      a.focused_big_cell = b.focused_big_cell)
    (by cases a; cases b; simp)

/-- The `all_occupied` from `morpion.rs`: no slot of the 9-slot array is `Free`. -/
def allOccupied (states : Fin 9 → CellState) : Bool :=
  (List.finRange 9).all fun k => !(states k == CellState.Free)

/-- The `is_won_by` from `morpion.rs`: one of the 8 winning lines is entirely
occupied by `player`. -/
def isWonBy (states : Fin 9 → CellState) (player : Player) : Bool :=
  (states 0 == CellState.Occupied player && states 1 == CellState.Occupied player
      && states 2 == CellState.Occupied player)
    || (states 3 == CellState.Occupied player && states 4 == CellState.Occupied player
      && states 5 == CellState.Occupied player)
    || (states 6 == CellState.Occupied player && states 7 == CellState.Occupied player
      && states 8 == CellState.Occupied player)
    || (states 0 == CellState.Occupied player && states 3 == CellState.Occupied player
      && states 6 == CellState.Occupied player)
    || (states 1 == CellState.Occupied player && states 4 == CellState.Occupied player
      && states 7 == CellState.Occupied player)
    || (states 2 == CellState.Occupied player && states 5 == CellState.Occupied player
      && states 8 == CellState.Occupied player)
    || (states 0 == CellState.Occupied player && states 4 == CellState.Occupied player
      && states 8 == CellState.Occupied player)
    || (states 2 == CellState.Occupied player && states 4 == CellState.Occupied player
      && states 6 == CellState.Occupied player)

/-- The `Morpion::new` from `morpion.rs` (via `Board::new`): empty board, `X` to
move, `Continue`, no constraint. -/
def Morpion.new : Morpion where
  board := { cells := fun _ _ => CellState.Free, states := fun _ => CellState.Free }
  player := Player.X
  state := PlayingState.Continue
  focused_big_cell := none

/-- The `Morpion::index_is_playable` from `morpion.rs`. -/
def indexIsPlayable (self : Morpion) (ult_index index : Fin 9) : Bool :=
  self.board.states ult_index == CellState.Free
    && self.board.cells ult_index index == CellState.Free
    && ((match self.focused_big_cell with
          | some obliged_index => obliged_index == ult_index
          | none => false)
        || self.focused_big_cell == none)

/-- The `Morpion::check_playing_state` from `morpion.rs`:
win for the player who just moved, else tie when the aggregate board is full
or every still-`Free` sub-board is internally full, else continue. -/
def checkPlayingState (self : Morpion) : PlayingState :=
  if isWonBy self.board.states self.player.other then
    PlayingState.Win self.player.other
  else if allOccupied self.board.states
      || (((List.finRange 9).filter fun i => self.board.states i == CellState.Free).all
            fun i => allOccupied (self.board.cells i)) then
    PlayingState.Tie
  else
    PlayingState.Continue

/-- The cell grid after the first line of `Morpion::play_at`: the played cell
becomes occupied by the mover. -/
def playCells (self : Morpion) (ult_index index : Fin 9) : Fin 9 → Fin 9 → CellState :=
  Function.update self.board.cells ult_index
    (Function.update (self.board.cells ult_index) index (CellState.Occupied self.player))

/-- The aggregate `states` array after `Morpion::play_at`: the played
sub-board becomes `Occupied` by the mover if now won, `Tie` if now full,
otherwise it is unchanged. -/
def playStates (self : Morpion) (ult_index index : Fin 9) : Fin 9 → CellState :=
  if isWonBy (playCells self ult_index index ult_index) self.player then
    Function.update self.board.states ult_index (CellState.Occupied self.player)
  else if allOccupied (playCells self ult_index index ult_index) then
    Function.update self.board.states ult_index CellState.Tie
  else
    self.board.states

/-- The `Morpion::play_at` from `morpion.rs`: occupy the cell, recompute the
aggregate state of the played sub-board, set the next focused sub-board from
the (updated) aggregate state at the inner index, flip the player, and
recompute `state` via `check_playing_state`. -/
def playAt (self : Morpion) (ult_index index : Fin 9) : Morpion :=
  let board : Board := { cells := playCells self ult_index index
                         states := playStates self ult_index index }
  let focused : Option (Fin 9) :=
    match playStates self ult_index index index with
    | CellState.Free => some index
    | _ => none
  { board := board
    player := self.player.other
    state := checkPlayingState
      { board := board, player := self.player.other, state := self.state
        focused_big_cell := focused }
    focused_big_cell := focused }

/-- The `generate_children` from `ai.rs`: children of all playable `(i, j)` pairs
in row-major order. -/
def generateChildren (node : Morpion) : List Morpion :=
  (List.finRange 9).flatMap fun i =>
    (List.finRange 9).filterMap fun j =>
      if indexIsPlayable node i j then some (playAt node i j) else none

/-- Game states reachable from the fresh game by repeatedly playing at
playable pairs. -/
inductive Reachable : Morpion → Prop
  | base : Reachable Morpion.new
  | step {n : Morpion} (i j : Fin 9) : Reachable n → indexIsPlayable n i j = true →
      Reachable (playAt n i j)

/-- The `isize::MIN` as an integer. -/
def isizeMIN : Int := -(2 ^ 63)

/-- The `isize::MAX` as an integer. -/
def isizeMAX : Int := 2 ^ 63 - 1

/-- The `dir` from `ai.rs`: `1` for the maximizing player, `-1` otherwise. -/
def dir (actual_player maximizing_player : Player) : Int :=
  if actual_player = maximizing_player then 1 else -1

/-- The `WINNING_WEIGHT` from `ai.rs`. -/
def WINNING_WEIGHT : Int := 10000

/-- The `WEIGHTS_CENTER` from `ai.rs`. -/
def WEIGHTS_CENTER : Fin 9 → Int := ![40, 10, 40, 10, 45, 10, 40, 10, 40]

/-- The `WEIGHTS_CORNER` from `ai.rs`. -/
def WEIGHTS_CORNER : Fin 9 → Int := ![45, 10, 45, 10, 15, 10, 45, 10, 45]

/-- The `weighted_heuristic` from `ai.rs`. -/
def weightedHeuristic (node : Morpion) (maximizing_player : Player)
    (weights : Fin 9 → Int) : Int :=
  match node.state with
  | PlayingState.Continue =>
      (List.finRange 9).foldl (fun score big_cell_index =>
        match node.board.states big_cell_index with
        | CellState.Occupied player =>
            score + dir player maximizing_player * 50 * weights big_cell_index
        | CellState.Tie => score
        | CellState.Free =>
            (List.finRange 9).foldl (fun score2 lil_cell_index =>
              match node.board.cells big_cell_index lil_cell_index with
              | CellState.Occupied player =>
                  score2 + dir player maximizing_player * weights lil_cell_index
              | _ => score2) score) 0
  | PlayingState.Win player => dir player maximizing_player * WINNING_WEIGHT
  | PlayingState.Tie => 0

/-- The `center_heuristic` from `ai.rs`. -/
def centerHeuristic (node : Morpion) (maximizing_player : Player) : Int :=
  weightedHeuristic node maximizing_player WEIGHTS_CENTER

/-- The `corner_heuristic` from `ai.rs`. -/
def cornerHeuristic (node : Morpion) (maximizing_player : Player) : Int :=
  weightedHeuristic node maximizing_player WEIGHTS_CORNER

/-- The `if let Occupied` accumulation inside `evaluate_winning_sequence`:
add the mover direction of an occupied cell to the running line score. -/
def addDir (maximizing_player : Player) (acc : Int) (c : CellState) : Int :=
  match c with
  | CellState.Occupied player => acc + dir player maximizing_player
  | _ => acc

/-- The `evaluate_winning_sequence` from `ai.rs`, its `for row in 0..3` /
`for col in 0..3` loops over the literal index grid unrolled.  For each of
the 3 rows (`row*3+col`), 3 columns (`col*3+row`), the main diagonal
(`row*4`) and the anti-diagonal (`row*3+col` with `row+col == 2`), the
directional sum over occupied cells is accumulated; a sum is added to the
score exactly when it is even. -/
def evaluateWinningSequence (states : Fin 9 → CellState) (maximizing_player : Player) : Int :=
  let row0 := addDir maximizing_player
    (addDir maximizing_player (addDir maximizing_player 0 (states 0)) (states 1)) (states 2)
  let col0 := addDir maximizing_player
    (addDir maximizing_player (addDir maximizing_player 0 (states 0)) (states 3)) (states 6)
  let row1 := addDir maximizing_player
    (addDir maximizing_player (addDir maximizing_player 0 (states 3)) (states 4)) (states 5)
  let col1 := addDir maximizing_player
    (addDir maximizing_player (addDir maximizing_player 0 (states 1)) (states 4)) (states 7)
  let row2 := addDir maximizing_player
    (addDir maximizing_player (addDir maximizing_player 0 (states 6)) (states 7)) (states 8)
  let col2 := addDir maximizing_player
    (addDir maximizing_player (addDir maximizing_player 0 (states 2)) (states 5)) (states 8)
  let diag1 := addDir maximizing_player
    (addDir maximizing_player (addDir maximizing_player 0 (states 0)) (states 4)) (states 8)
  let diag2 := addDir maximizing_player
    (addDir maximizing_player (addDir maximizing_player 0 (states 2)) (states 4)) (states 6)
  (if row0 % 2 = 0 then row0 else 0) + (if col0 % 2 = 0 then col0 else 0)
    + (if row1 % 2 = 0 then row1 else 0) + (if col1 % 2 = 0 then col1 else 0)
    + (if row2 % 2 = 0 then row2 else 0) + (if col2 % 2 = 0 then col2 else 0)
    + (if diag1 % 2 = 0 then diag1 else 0) + (if diag2 % 2 = 0 then diag2 else 0)

/-- The `winning_sequence_heuristic` from `ai.rs`. -/
def winningSequenceHeuristic (node : Morpion) (maximizing_player : Player) : Int :=
  match node.state with
  | PlayingState.Continue =>
      (List.finRange 9).foldl (fun score big_cell_index =>
        match node.board.states big_cell_index with
        | CellState.Occupied player =>
            let d := dir player maximizing_player
            let score := score + d * 5
            if big_cell_index = 4 then score + d * 10
            else if big_cell_index = 0 ∨ big_cell_index = 2
                ∨ big_cell_index = 6 ∨ big_cell_index = 8 then score + d * 3
            else score
        | CellState.Free =>
            let score := score
              + evaluateWinningSequence (node.board.cells big_cell_index) maximizing_player
            (List.finRange 9).foldl (fun score2 lil_cell_index =>
              match node.board.cells big_cell_index lil_cell_index with
              | CellState.Occupied player =>
                  let d := dir player maximizing_player
                  let score2 := if lil_cell_index = 4 then score2 + d * 3 else score2
                  if big_cell_index = 4 then score2 + d * 3 else score2
              | _ => score2) score
        | CellState.Tie => score)
        (evaluateWinningSequence node.board.states maximizing_player * 2)
  | PlayingState.Win player => dir player maximizing_player * WINNING_WEIGHT
  | PlayingState.Tie => 0

/-- The `everywhere_heuristic` from `ai.rs`. -/
def everywhereHeuristic (node : Morpion) (maximizing_player : Player) : Int :=
  let score := winningSequenceHeuristic node maximizing_player
  if node.focused_big_cell = none then
    score + dir node.player maximizing_player * 2
  else
    score

/-- The maximizing-player loop of `minimax`:
`value = value.max(minimax(child, ...))` over the children. -/
def mmMaxLoop (g : Morpion → Int) : List Morpion → Int → Int
  | [], value => value
  | child :: rest, value => mmMaxLoop g rest (max value (g child))

/-- The minimizing-player loop of `minimax`:
`value = value.min(minimax(child, ...))` over the children. -/
def mmMinLoop (g : Morpion → Int) : List Morpion → Int → Int
  | [], value => value
  | child :: rest, value => mmMinLoop g rest (min value (g child))

/-- The `minimax` from `ai.rs`.  Depth is a natural number (the claims only
concern `depth ≥ 0`). -/
def minimax : Nat → Morpion → Player → (Morpion → Player → Int) → Int
  | 0, node, maximizing_player, heuristic => heuristic node maximizing_player
  | depth + 1, node, maximizing_player, heuristic =>
      if node.state ≠ PlayingState.Continue then heuristic node maximizing_player
      else if node.player = maximizing_player then
        mmMaxLoop (fun child => minimax depth child maximizing_player heuristic)
          (generateChildren node) isizeMIN
      else
        mmMinLoop (fun child => minimax depth child maximizing_player heuristic)
          (generateChildren node) isizeMAX

/-- The maximizing-player loop of `alpha_beta`:
`value = value.max(..)`, break when `value > beta`, else
`alpha = alpha.max(value)`. -/
def abMaxLoop (f : Morpion → Int → Int → Int) :
    List Morpion → Int → Int → Int → Int
  | [], _, _, value => value
  | child :: rest, alpha, beta, value =>
      let value' := max value (f child alpha beta)
      if beta < value' then value'
      else abMaxLoop f rest (max alpha value') beta value'

/-- The minimizing-player loop of `alpha_beta`:
`value = value.min(..)`, break when `value < alpha`, else
`beta = beta.min(value)`. -/
def abMinLoop (f : Morpion → Int → Int → Int) :
    List Morpion → Int → Int → Int → Int
  | [], _, _, value => value
  | child :: rest, alpha, beta, value =>
      let value' := min value (f child alpha beta)
      if value' < alpha then value'
      else abMinLoop f rest alpha (min beta value') value'

/-- The `alpha_beta` from `ai.rs`.  At a cutoff it returns
`heuristic(node) * (depth + 1)`. -/
def alphaBeta : Nat → Morpion → Int → Int → Player → (Morpion → Player → Int) → Int
  | 0, node, _, _, maximizing_player, heuristic =>
      heuristic node maximizing_player * 1
  | depth + 1, node, alpha, beta, maximizing_player, heuristic =>
      if node.state ≠ PlayingState.Continue then
        heuristic node maximizing_player * ((depth : Int) + 1 + 1)
      else if node.player = maximizing_player then
        abMaxLoop (fun child a b => alphaBeta depth child a b maximizing_player heuristic)
          (generateChildren node) alpha beta isizeMIN
      else
        abMinLoop (fun child a b => alphaBeta depth child a b maximizing_player heuristic)
          (generateChildren node) alpha beta isizeMAX

/-- The `AILevel` from `ai.rs`. -/
inductive AILevel
  | Easy
  | Medium
  | Hard
deriving DecidableEq, Repr

/-- The per-level `alpha_beta` call of `Morpion::ai_move`: depth 5 with the
corner heuristic for Easy, depth 6 with the center heuristic for Medium,
depth 6 with the everywhere heuristic for Hard, window
`(isize::MIN, isize::MAX)` and the pre-move player as maximizing player. -/
def levelScore (player : Player) (ai_level : AILevel) (child : Morpion) : Int :=
  match ai_level with
  | AILevel.Easy => alphaBeta 5 child isizeMIN isizeMAX player cornerHeuristic
  | AILevel.Medium => alphaBeta 6 child isizeMIN isizeMAX player centerHeuristic
  | AILevel.Hard => alphaBeta 6 child isizeMIN isizeMAX player everywhereHeuristic

/-- The selection loop of `Morpion::ai_move`: per enumerated child compute
`score + score * 10 + noise`, keep the first strictly greater score. -/
def selectLoop (score : Morpion → Int) (noise : Nat → Int) :
    List Morpion → Nat → Nat → Int → Nat
  | [], _, best_move_index, _ => best_move_index
  | child :: rest, index, best_move_index, max_score =>
      let s := score child
      let s := s + s * 10 + noise index
      if s > max_score then selectLoop score noise rest (index + 1) index s
      else selectLoop score noise rest (index + 1) best_move_index max_score

/-- The `Morpion::ai_move` from `morpion.rs`, the `noise(2)` values supplied as
an explicit stream indexed by loop iteration. -/
def aiMove (self : Morpion) (ai_level : AILevel) (noise : Nat → Int) : Morpion :=
  let children := generateChildren self
  children.getD (selectLoop (levelScore self.player ai_level) noise children 0 0 isizeMIN) self

/-- All 81 `(sub, cell)` index pairs in row-major (lexicographic) order. -/
def pairsRowMajor : List (Fin 9 × Fin 9) :=
  (List.finRange 9).flatMap fun i => (List.finRange 9).map fun j => (i, j)

/-- A hand-built terminal node (overall state `Win X`) that still has
playable cells: the board is empty and the focus points at sub-board 4. -/
def winButPlayable : Morpion :=
  { Morpion.new with
      state := PlayingState.Win Player.X
      focused_big_cell := some 4 }

/-- A node whose aggregate top row is won by `X` while `O` is to move. -/
def winRowNode : Morpion :=
  { Morpion.new with
      board := { cells := fun _ _ => CellState.Free
                 states := fun i => if i.val < 3 then CellState.Occupied Player.X
                   else CellState.Free }
      player := Player.O }

/-- The spec's phrase "every still-Free aggregate sub-board has no remaining
Free interior cell", as a Boolean predicate. -/
def everyFreeSubBoardFull (n : Morpion) : Bool :=
  (List.finRange 9).all fun i =>
    !(n.board.states i == CellState.Free) || allOccupied (n.board.cells i)

/-- The spec's fully-played drawn sub-board pattern `X,O,X,O,X,O,O,X,O`:
all nine cells occupied, no winning line for either player. -/
def drawnSubBoard : Fin 9 → CellState :=
  ![CellState.Occupied Player.X, CellState.Occupied Player.O, CellState.Occupied Player.X,
    CellState.Occupied Player.O, CellState.Occupied Player.X, CellState.Occupied Player.O,
    CellState.Occupied Player.O, CellState.Occupied Player.X, CellState.Occupied Player.O]

/-- A hand-built node whose forced sub-board 0 is fully occupied (with no
winner) while its aggregate slot is still `Free` and other sub-boards are
open. -/
def forcedFullNode : Morpion :=
  { board := { cells := fun i => if i = 0 then drawnSubBoard else fun _ => CellState.Free
               states := fun _ => CellState.Free }
    player := Player.O
    state := PlayingState.Continue
    focused_big_cell := some 0 }

/-- The 8 winning lines (3 rows, 3 columns, 2 diagonals), each in the cell
order in which `evaluate_winning_sequence` accumulates it. -/
def winningLines : List (List (Fin 9)) :=
  [[0, 1, 2], [3, 4, 5], [6, 7, 8], [0, 3, 6], [1, 4, 7], [2, 5, 8], [0, 4, 8], [2, 4, 6]]

/-- The directional sum of a line: `dir(occupant, maximizing_player)` summed
over the occupied cells of the line. -/
def lineDirSum (maximizing_player : Player) (states : Fin 9 → CellState)
    (line : List (Fin 9)) : Int :=
  line.foldl (fun acc k => addDir maximizing_player acc (states k)) 0

/-- A sub-board with two `X` marks on the top row and nothing else. -/
def twoInRowStates : Fin 9 → CellState :=
  ![CellState.Occupied Player.X, CellState.Occupied Player.X, CellState.Free,
    CellState.Free, CellState.Free, CellState.Free,
    CellState.Free, CellState.Free, CellState.Free]

/-- The C2 invariant, for all 9 sub-boards of a node: the aggregate slot is
`Occupied p` iff the sub-board is won by `p`, `Tie` iff it is full and
unwon, and `Free` otherwise. -/
def boardInv (n : Morpion) : Prop :=
  ∀ i : Fin 9,
    (∀ p : Player,
      (n.board.states i = CellState.Occupied p ↔ isWonBy (n.board.cells i) p = true))
    ∧ (n.board.states i = CellState.Tie
      ↔ (allOccupied (n.board.cells i) = true
          ∧ isWonBy (n.board.cells i) Player.X = false
          ∧ isWonBy (n.board.cells i) Player.O = false))
    ∧ (n.board.states i = CellState.Free
      ↔ (isWonBy (n.board.cells i) Player.X = false
          ∧ isWonBy (n.board.cells i) Player.O = false
          ∧ allOccupied (n.board.cells i) = false))

/-- The state after `X` plays the centre cell of the centre sub-board. -/
def demoNode : Morpion := playAt Morpion.new 4 4

/-- A drawn sub-board missing only cell 5; filling it with `X` completes the
board without a winning line. -/
def lastMoveSub : Fin 9 → CellState :=
  ![CellState.Occupied Player.X, CellState.Occupied Player.O, CellState.Occupied Player.X,
    CellState.Occupied Player.O, CellState.Occupied Player.X, CellState.Free,
    CellState.Occupied Player.O, CellState.Occupied Player.X, CellState.Occupied Player.O]

/-- A node with exactly one playable pair, `(0, 5)`, whose child is
terminal. -/
def oneMoveNode : Morpion :=
  { board := { cells := fun i => if i = 0 then lastMoveSub else fun _ => CellState.Free
               states := fun i => if i = 0 then CellState.Free else CellState.Tie }
    player := Player.X
    state := PlayingState.Continue
    focused_big_cell := some 0 }

/-- Modelled on the spec's amended comparison point: plain minimax whose
cutoff evaluation carries the same `* (depth + 1)` scaling as `alpha_beta`.
Identical to `minimax` except at the cutoff. -/
def minimaxScaled : Nat → Morpion → Player → (Morpion → Player → Int) → Int
  | 0, node, maximizing_player, heuristic => heuristic node maximizing_player * 1
  | depth + 1, node, maximizing_player, heuristic =>
      if node.state ≠ PlayingState.Continue then
        heuristic node maximizing_player * ((depth : Int) + 1 + 1)
      else if node.player = maximizing_player then
        mmMaxLoop (fun child => minimaxScaled depth child maximizing_player heuristic)
          (generateChildren node) isizeMIN
      else
        mmMinLoop (fun child => minimaxScaled depth child maximizing_player heuristic)
          (generateChildren node) isizeMAX

/-- A terminal node: a fresh board hand-marked as already won by `X`. -/
def wonNode : Morpion :=
  { Morpion.new with state := PlayingState.Win Player.X }

/-- The heuristic stays within `isize` range even after the `* (depth + 1)`
cutoff scaling, for all depths up to `d`. -/
def HBound (d : Nat) (m : Player) (h : Morpion → Player → Int) : Prop :=
  ∀ (n : Morpion) (k : Nat), k ≤ d →
    isizeMIN ≤ h n m * ((k : Int) + 1) ∧ h n m * ((k : Int) + 1) ≤ isizeMAX

/-! ## Helper lemmas about list combinators -/

/-- The `filterMap` of a guarded `some` is `filter` followed by `map`. -/
theorem filterMap_guard {α β : Type} (l : List α) (p : α → Bool) (g : α → β) :
    l.filterMap (fun x => if p x then some (g x) else none) = (l.filter p).map g := by
  induction l with
  | nil => rfl
  | cons a t ih =>
      by_cases h : p a <;> simp [List.filterMap_cons, List.filter_cons, h, ih]

/-- The `filter` distributes over `flatMap`. -/
theorem filter_flatMap' {α β : Type} (l : List α) (f : α → List β) (p : β → Bool) :
    (l.flatMap f).filter p = l.flatMap fun a => (f a).filter p := by
  induction l with
  | nil => rfl
  | cons a t ih => simp [List.flatMap_cons, List.filter_append, ih]

/-- The `map` distributes over `flatMap`. -/
theorem map_flatMap' {α β γ : Type} (l : List α) (f : α → List β) (g : β → γ) :
    (l.flatMap f).map g = l.flatMap fun a => (f a).map g := by
  induction l with
  | nil => rfl
  | cons a t ih => simp [List.flatMap_cons, List.map_append, ih]

/-- The `filter` after `map` is `map` after `filter` of the composed predicate. -/
theorem filter_map' {α β : Type} (l : List α) (f : α → β) (p : β → Bool) :
    (l.map f).filter p = (l.filter fun a => p (f a)).map f := by
  induction l with
  | nil => rfl
  | cons a t ih => by_cases h : p (f a) <;> simp [List.filter_cons, h, ih]

/-- The `generate_children` is: keep the playable pairs of the row-major pair
list, then play each one. -/
theorem gc_eq_filter (n : Morpion) :
    generateChildren n
      = (pairsRowMajor.filter fun ij => indexIsPlayable n ij.1 ij.2).map
          fun ij => playAt n ij.1 ij.2 := by
  unfold generateChildren pairsRowMajor
  simp only [filterMap_guard]
  rw [filter_flatMap', map_flatMap']
  refine congrArg _ (funext fun i => ?_)
  rw [filter_map', List.map_map]
  rfl

/-- Every index pair occurs in `pairsRowMajor`. -/
theorem mem_pairsRowMajor (i j : Fin 9) : (i, j) ∈ pairsRowMajor := by
  simp only [pairsRowMajor, List.mem_flatMap, List.mem_map]
  exact ⟨i, List.mem_finRange i, j, List.mem_finRange j, rfl⟩

/-! ## C4, C5: move generation -/

/-- C4: `generate_children` returns exactly one child for each `(sub, cell)`
pair satisfying `index_is_playable`, in row-major (lexicographic) order, and
each child equals the node with `play_at(sub, cell)` applied. -/
theorem generateChildren_eq_playable_pairs (n : Morpion) :
    generateChildren n
      = (pairsRowMajor.filter fun ij => indexIsPlayable n ij.1 ij.2).map
          fun ij => playAt n ij.1 ij.2 :=
  gc_eq_filter n

/-- C5 counterexample: a node whose `PlayingState` is terminal (`Win X`)
nevertheless produces children, because `generate_children` never consults
`state`. -/
theorem generateChildren_terminal_nonempty :
    winButPlayable.state ≠ PlayingState.Continue
      ∧ generateChildren winButPlayable ≠ [] :=
  ⟨by decide, by decide⟩

/-- C5 (amended): `generate_children` returns the empty list exactly when no
`(sub, cell)` pair is playable; the node's `PlayingState` is not consulted. -/
theorem generateChildren_nil_iff (n : Morpion) :
    generateChildren n = [] ↔ ∀ i j : Fin 9, indexIsPlayable n i j = false := by
  rw [gc_eq_filter n]
  constructor
  · intro h i j
    have hmem := mem_pairsRowMajor i j
    by_contra hne
    have hp : indexIsPlayable n i j = true := by
      cases hb : indexIsPlayable n i j
      · exact absurd hb hne
      · rfl
    have : ((i, j) : Fin 9 × Fin 9) ∈
        (pairsRowMajor.filter fun ij => indexIsPlayable n ij.1 ij.2) := by
      exact List.mem_filter.mpr ⟨hmem, hp⟩
    exact List.eq_nil_iff_forall_not_mem.mp (List.map_eq_nil_iff.mp h) _ this
  · intro h
    have : (pairsRowMajor.filter fun ij => indexIsPlayable n ij.1 ij.2) = [] := by
      apply List.eq_nil_iff_forall_not_mem.mpr
      intro ij hij
      rcases List.mem_filter.mp hij with ⟨-, hp⟩
      rw [h ij.1 ij.2] at hp
      exact Bool.false_ne_true hp
    rw [this]
    rfl

/-! ## C8: depth-0 search is the static evaluation -/

/-- C8: a depth-0 search returns exactly the heuristic's static evaluation:
`minimax(node, 0, m, h) = h(node, m)` and
`alpha_beta(node, 0, MIN, MAX, m, h) = h(node, m)`. -/
theorem depth_zero_is_static_eval (n : Morpion) (m : Player)
    (h : Morpion → Player → Int) :
    minimax 0 n m h = h n m
      ∧ alphaBeta 0 n isizeMIN isizeMAX m h = h n m :=
  ⟨rfl, mul_one (h n m)⟩

/-! ## C10: a win is only ever attributed to the player who just moved -/

/-- C10: `check_playing_state` attributes a win only to `node.player.other()`
(the player who just moved), never to the player to move. -/
theorem checkPlayingState_win_imp_other (n : Morpion) (p : Player)
    (h : checkPlayingState n = PlayingState.Win p) :
    p = n.player.other ∧ p ≠ n.player := by
  unfold checkPlayingState at h
  split_ifs at h with h1 h2
  · injection h with hp
    subst hp
    exact ⟨rfl, by cases n.player <;> simp [Player.other]⟩

theorem checkPlayingState_win_imp_other_witness :
    Player.X = winRowNode.player.other ∧ Player.X ≠ winRowNode.player :=
  checkPlayingState_win_imp_other winRowNode Player.X (by decide)

/-! ## C3: characterisation of `check_playing_state` -/

/-- The `zip`/`filter`/`all` tie test inside `check_playing_state` agrees
with `everyFreeSubBoardFull`. -/
theorem filter_all_eq_everyFreeSubBoardFull (n : Morpion) :
    (((List.finRange 9).filter fun i => n.board.states i == CellState.Free).all
        fun i => allOccupied (n.board.cells i))
      = everyFreeSubBoardFull n := by
  rw [Bool.eq_iff_iff]
  simp only [everyFreeSubBoardFull, List.all_eq_true, List.mem_filter,
    List.mem_finRange, true_and, and_imp, Bool.or_eq_true, Bool.not_eq_true',
    beq_eq_false_iff_ne, ne_eq, beq_iff_eq, true_implies]
  constructor
  · intro h i
    by_cases hf : n.board.states i = CellState.Free
    · exact Or.inr (h i hf)
    · exact Or.inl hf
  · intro h i hf
    rcases h i with hne | hall
    · exact absurd hf hne
    · exact hall

/-- C3 (amended): `check_playing_state` returns `Win(p)` for the player `p`
who just moved iff `is_won_by(states, p)`; otherwise `Tie` iff the aggregate
board is full or every still-`Free` aggregate sub-board is internally full;
otherwise `Continue`.  (The code has no clause about the focused sub-board.) -/
theorem checkPlayingState_cases (n : Morpion) :
    (checkPlayingState n = PlayingState.Win n.player.other
      ↔ isWonBy n.board.states n.player.other = true)
    ∧ (checkPlayingState n = PlayingState.Tie
      ↔ (isWonBy n.board.states n.player.other = false
          ∧ (allOccupied n.board.states = true ∨ everyFreeSubBoardFull n = true)))
    ∧ (checkPlayingState n = PlayingState.Continue
      ↔ (isWonBy n.board.states n.player.other = false
          ∧ allOccupied n.board.states = false ∧ everyFreeSubBoardFull n = false)) := by
  unfold checkPlayingState
  rw [filter_all_eq_everyFreeSubBoardFull]
  by_cases h1 : isWonBy n.board.states n.player.other = true
  · simp [h1]
  · rw [Bool.not_eq_true] at h1
    by_cases h2 : (allOccupied n.board.states || everyFreeSubBoardFull n) = true
    · have h2' := h2
      rw [Bool.or_eq_true] at h2'
      rcases h2' with ha | hb
      · simp [h1, h2, ha]
      · simp [h1, h2, hb]
    · have h2a : allOccupied n.board.states = false := by
        cases hb : allOccupied n.board.states
        · rfl
        · exact absurd (by simp [hb]) h2
      have h2b : everyFreeSubBoardFull n = false := by
        cases hb : everyFreeSubBoardFull n
        · rfl
        · exact absurd (by simp [hb]) h2
      simp [h1, h2a, h2b]

/-- C3 counterexample: on `forcedFullNode` the currently forced sub-board is
fully occupied and nobody has won, yet `check_playing_state` returns
`Continue`, not `Tie` — the claimed "forced sub-board fully occupied"
disjunct does not exist in the code. -/
theorem checkPlayingState_forced_full_not_tie :
    forcedFullNode.focused_big_cell = some 0
      ∧ allOccupied (forcedFullNode.board.cells 0) = true
      ∧ isWonBy forcedFullNode.board.states Player.X = false
      ∧ isWonBy forcedFullNode.board.states Player.O = false
      ∧ checkPlayingState forcedFullNode = PlayingState.Continue := by
  decide

/-! ## C9: frame effect of `play_at` -/

/-- C9: `play_at(sub, cell)` occupies exactly the one interior cell (which
was `Free`) with the mover's mark; every other cell of every sub-board and
every aggregate entry other than `states[sub]` is unchanged. -/
theorem playAt_frame (n : Morpion) (sub cell : Fin 9)
    (hp : indexIsPlayable n sub cell = true) :
    (playAt n sub cell).board.cells sub cell = CellState.Occupied n.player
    ∧ n.board.cells sub cell = CellState.Free
    ∧ (∀ j : Fin 9, j ≠ cell → (playAt n sub cell).board.cells sub j = n.board.cells sub j)
    ∧ (∀ i : Fin 9, i ≠ sub → (playAt n sub cell).board.cells i = n.board.cells i)
    ∧ (∀ i : Fin 9, i ≠ sub → (playAt n sub cell).board.states i = n.board.states i) := by
  have hfree : n.board.cells sub cell = CellState.Free := by
    simp only [indexIsPlayable, Bool.and_eq_true, beq_iff_eq] at hp
    exact hp.1.2
  refine ⟨?_, hfree, ?_, ?_, ?_⟩
  · show playCells n sub cell sub cell = CellState.Occupied n.player
    simp [playCells]
  · intro j hj
    show playCells n sub cell sub j = n.board.cells sub j
    simp [playCells, Function.update_same, Function.update_noteq hj]
  · intro i hi
    show playCells n sub cell i = n.board.cells i
    simp [playCells, Function.update_noteq hi]
  · intro i hi
    show playStates n sub cell i = n.board.states i
    unfold playStates
    split_ifs <;> simp [Function.update_noteq hi]

theorem playAt_frame_witness :
    (playAt Morpion.new 4 4).board.cells 4 4 = CellState.Occupied Player.X
    ∧ (playAt Morpion.new 4 4).board.cells 0 = Morpion.new.board.cells 0
    ∧ (playAt Morpion.new 4 4).board.states 0 = Morpion.new.board.states 0 := by
  obtain ⟨h1, -, -, h4, h5⟩ := playAt_frame Morpion.new 4 4 (by decide)
  exact ⟨h1, h4 0 (by decide), h5 0 (by decide)⟩

/-! ## C7: `evaluate_winning_sequence` -/

/-- C7 counterexample: on a board with two aligned `X` marks the function
returns `2`, not the `4` demanded by "a line contributes double its
directional sum ... when that sum is even" — an even line contributes its
sum once, not doubled. -/
theorem evaluateWinningSequence_not_double :
    evaluateWinningSequence twoInRowStates Player.X
      ≠ (winningLines.map fun l =>
          if lineDirSum Player.X twoInRowStates l % 2 = 0
          then 2 * lineDirSum Player.X twoInRowStates l else 0).sum := by
  decide

/-- C7 (amended): `evaluate_winning_sequence` returns the sum, over the 3
rows, 3 columns and 2 diagonals, of that line's directional sum whenever the
sum is even, and `0` for lines whose directional sum is odd. -/
theorem evaluateWinningSequence_eq_line_sums (states : Fin 9 → CellState)
    (maximizing_player : Player) :
    evaluateWinningSequence states maximizing_player
      = (winningLines.map fun l =>
          if lineDirSum maximizing_player states l % 2 = 0
          then lineDirSum maximizing_player states l else 0).sum := by
  simp only [evaluateWinningSequence, winningLines, lineDirSum, List.map_cons,
    List.map_nil, List.sum_cons, List.sum_nil, List.foldl_cons, List.foldl_nil]
  ring

/-! ## C2: the aggregate `states` invariant on reachable nodes -/

theorem playAt_cells_def (n : Morpion) (sub cell : Fin 9) :
    (playAt n sub cell).board.cells = playCells n sub cell := rfl

theorem playAt_states_def (n : Morpion) (sub cell : Fin 9) :
    (playAt n sub cell).board.states = playStates n sub cell := rfl

theorem playCells_self (n : Morpion) (sub cell : Fin 9) :
    playCells n sub cell sub
      = Function.update (n.board.cells sub) cell (CellState.Occupied n.player) := by
  simp [playCells]

theorem playCells_other (n : Morpion) (sub cell i : Fin 9) (hi : i ≠ sub) :
    playCells n sub cell i = n.board.cells i := by
  simp [playCells, Function.update_noteq hi]

theorem playStates_other (n : Morpion) (sub cell i : Fin 9) (hi : i ≠ sub) :
    playStates n sub cell i = n.board.states i := by
  unfold playStates
  split_ifs <;> simp [Function.update_noteq hi]

theorem playable_free (n : Morpion) (sub cell : Fin 9)
    (hp : indexIsPlayable n sub cell = true) :
    n.board.states sub = CellState.Free ∧ n.board.cells sub cell = CellState.Free := by
  simp only [indexIsPlayable, Bool.and_eq_true, beq_iff_eq] at hp
  exact ⟨hp.1.1, hp.1.2⟩

/-- Placing a mark of player `p` on a previously free cell does not change
whether any other player `q` has a winning line, cell by cell. -/
theorem beq_occ_update (sb : Fin 9 → CellState) (idx : Fin 9) (p q : Player)
    (hq : q ≠ p) (hfree : sb idx = CellState.Free) (k : Fin 9) :
    (Function.update sb idx (CellState.Occupied p) k == CellState.Occupied q)
      = (sb k == CellState.Occupied q) := by
  by_cases hk : k = idx
  · subst hk
    rw [Function.update_same, hfree]
    cases p <;> cases q
    · exact absurd rfl hq
    · rfl
    · rfl
    · exact absurd rfl hq
  · rw [Function.update_noteq hk]

/-- Placing a mark of player `p` on a previously free cell does not change
whether another player `q` has a winning line. -/
theorem isWonBy_update_other (sb : Fin 9 → CellState) (idx : Fin 9) (p q : Player)
    (hq : q ≠ p) (hfree : sb idx = CellState.Free) :
    isWonBy (Function.update sb idx (CellState.Occupied p)) q = isWonBy sb q := by
  have h := beq_occ_update sb idx p q hq hfree
  simp only [isWonBy, h]

theorem boardInv_new : boardInv Morpion.new := by
  intro i
  refine ⟨fun p => ?_, ?_, ?_⟩ <;>
    simp [Morpion.new, isWonBy, allOccupied, List.all_eq_true]

theorem boardInv_playAt (n : Morpion) (sub cell : Fin 9)
    (hinv : boardInv n) (hp : indexIsPlayable n sub cell = true) :
    boardInv (playAt n sub cell) := by
  obtain ⟨hsF, hcF⟩ := playable_free n sub cell hp
  have hwOld : ∀ q : Player, isWonBy (n.board.cells sub) q = false := by
    intro q
    cases hw : isWonBy (n.board.cells sub) q
    · rfl
    · have hcon := ((hinv sub).1 q).mpr hw
      rw [hsF] at hcon
      exact absurd hcon (by simp)
  have hwon' : ∀ q : Player, q ≠ n.player →
      isWonBy (playCells n sub cell sub) q = false := by
    intro q hq
    rw [playCells_self, isWonBy_update_other _ _ _ _ hq hcF]
    exact hwOld q
  intro i
  by_cases hi : i = sub
  case neg =>
    rw [playAt_cells_def, playAt_states_def, playCells_other n sub cell i hi,
      playStates_other n sub cell i hi]
    exact hinv i
  case pos =>
  subst hi
  rw [playAt_cells_def, playAt_states_def]
  unfold playStates
  by_cases hwin : isWonBy (playCells n i cell i) n.player = true
  · rw [if_pos hwin, Function.update_same]
    have hXO : ¬(isWonBy (playCells n i cell i) Player.X = false
        ∧ isWonBy (playCells n i cell i) Player.O = false) := by
      rintro ⟨hX, hO⟩
      cases hpl : n.player
      · rw [hpl] at hwin
        rw [hX] at hwin
        exact absurd hwin (by simp)
      · rw [hpl] at hwin
        rw [hO] at hwin
        exact absurd hwin (by simp)
    refine ⟨fun p => ?_, ?_, ?_⟩
    · by_cases hpq : p = n.player
      · subst hpq
        simp [hwin]
      · simp [hwon' p hpq, CellState.Occupied.injEq]
        exact fun hcon => hpq hcon.symm
    · constructor
      · intro hcon
        exact absurd hcon (by simp)
      · rintro ⟨-, hX, hO⟩
        exact absurd ⟨hX, hO⟩ hXO
    · constructor
      · intro hcon
        exact absurd hcon (by simp)
      · rintro ⟨hX, hO, -⟩
        exact absurd ⟨hX, hO⟩ hXO
  · have hnp : isWonBy (playCells n i cell i) n.player = false := by
      cases hb : isWonBy (playCells n i cell i) n.player
      · rfl
      · exact absurd hb hwin
    have hX : isWonBy (playCells n i cell i) Player.X = false := by
      cases hpl : n.player
      · rw [← hpl]
        exact hnp
      · exact hwon' Player.X (by rw [hpl]; decide)
    have hO : isWonBy (playCells n i cell i) Player.O = false := by
      cases hpl : n.player
      · exact hwon' Player.O (by rw [hpl]; decide)
      · rw [← hpl]
        exact hnp
    by_cases htie : allOccupied (playCells n i cell i) = true
    · rw [if_neg hwin, if_pos htie, Function.update_same]
      refine ⟨fun p => ?_, ?_, ?_⟩
      · constructor
        · intro hcon
          exact absurd hcon (by simp)
        · intro hw
          cases p
          · exact absurd hw (by simp [hX])
          · exact absurd hw (by simp [hO])
      · simp [htie, hX, hO]
      · simp [htie]
    · rw [if_neg hwin, if_neg htie]
      have hall : allOccupied (playCells n i cell i) = false := by
        cases hb : allOccupied (playCells n i cell i)
        · rfl
        · exact absurd hb htie
      refine ⟨fun p => ?_, ?_, ?_⟩
      · rw [hsF]
        cases p
        · simp [hX]
        · simp [hO]
      · rw [hsF]
        simp [hall]
      · rw [hsF]
        simp [hX, hO, hall]

/-- Every reachable node satisfies the aggregate-states invariant. -/
theorem reachable_boardInv {n : Morpion} (h : Reachable n) : boardInv n := by
  induction h with
  | base => exact boardInv_new
  | step i j _ hp ih => exact boardInv_playAt _ i j ih hp

/-- C2: on every reachable node, each aggregate slot `states[i]` is
`Occupied p` iff sub-board `i` is won by `p` along one of the 8 winning
lines, `Tie` iff all 9 cells are non-Free with no winner, and `Free`
otherwise. -/
theorem reachable_states_characterisation (n : Morpion) (h : Reachable n)
    (i : Fin 9) (p : Player) :
    (n.board.states i = CellState.Occupied p ↔ isWonBy (n.board.cells i) p = true)
    ∧ (n.board.states i = CellState.Tie
      ↔ (allOccupied (n.board.cells i) = true
          ∧ isWonBy (n.board.cells i) Player.X = false
          ∧ isWonBy (n.board.cells i) Player.O = false))
    ∧ (n.board.states i = CellState.Free
      ↔ (isWonBy (n.board.cells i) Player.X = false
          ∧ isWonBy (n.board.cells i) Player.O = false
          ∧ allOccupied (n.board.cells i) = false)) := by
  obtain ⟨h1, h2, h3⟩ := reachable_boardInv h i
  exact ⟨h1 p, h2, h3⟩

theorem reachable_states_characterisation_witness :
    (demoNode.board.states 4 = CellState.Occupied Player.X
      ↔ isWonBy (demoNode.board.cells 4) Player.X = true)
    ∧ (demoNode.board.states 4 = CellState.Tie
      ↔ (allOccupied (demoNode.board.cells 4) = true
          ∧ isWonBy (demoNode.board.cells 4) Player.X = false
          ∧ isWonBy (demoNode.board.cells 4) Player.O = false))
    ∧ (demoNode.board.states 4 = CellState.Free
      ↔ (isWonBy (demoNode.board.cells 4) Player.X = false
          ∧ isWonBy (demoNode.board.cells 4) Player.O = false
          ∧ allOccupied (demoNode.board.cells 4) = false)) :=
  reachable_states_characterisation demoNode
    (Reachable.step 4 4 Reachable.base (by decide)) 4 Player.X

/-! ## C6: `ai_move` selection -/

/-- The selection loop of `ai_move` returns either its incoming best index
(when no comparison score beats the incoming maximum) or the position of the
first comparison score that is a strict maximum of the remaining scores and
beats the incoming maximum.  `cs` gives the comparison score at each global
index. -/
theorem selectLoop_spec (score : Morpion → Int) (ns : Nat → Int) (cs : Nat → Int) :
    ∀ (l : List Morpion) (i b : Nat) (m : Int),
      (∀ j (hj : j < l.length),
        score (l.get ⟨j, hj⟩) + score (l.get ⟨j, hj⟩) * 10 + ns (i + j) = cs (i + j)) →
      (selectLoop score ns l i b m = b ∧ ∀ j, j < l.length → cs (i + j) ≤ m)
      ∨ (∃ j, j < l.length ∧ selectLoop score ns l i b m = i + j ∧ m < cs (i + j)
          ∧ (∀ j', j' < l.length → cs (i + j') ≤ cs (i + j))
          ∧ (∀ j', j' < j → cs (i + j') < cs (i + j))) := by
  intro l
  induction l with
  | nil =>
      intro i b m _
      left
      exact ⟨rfl, fun j hj => absurd hj (by simp)⟩
  | cons c rest ih =>
      intro i b m hcs
      have hc0 : score c + score c * 10 + ns i = cs i := by
        have h0 := hcs 0 (by simp)
        simpa using h0
      have hshift : ∀ j (hj : j < rest.length),
          score (rest.get ⟨j, hj⟩) + score (rest.get ⟨j, hj⟩) * 10 + ns (i + 1 + j)
            = cs (i + 1 + j) := by
        intro j hj
        have hs := hcs (j + 1) (by simpa using Nat.succ_lt_succ hj)
        have hidx : i + (j + 1) = i + 1 + j := by omega
        rw [hidx] at hs
        simpa using hs
      simp only [selectLoop]
      by_cases hgt : score c + score c * 10 + ns i > m
      · rw [if_pos hgt]
        rcases ih (i + 1) i (score c + score c * 10 + ns i) hshift with
          ⟨hr, hall⟩ | ⟨j, hj, hr, hm, hall, hfirst⟩
        · right
          refine ⟨0, by simp, by simpa using hr, ?_, ?_, ?_⟩
          · rw [Nat.add_zero]
            rw [← hc0]
            exact hgt
          · intro j' hj'
            rw [Nat.add_zero]
            match j', hj' with
            | 0, _ => exact le_refl _
            | j' + 1, hj' =>
                have hle := hall j' (by simpa using Nat.lt_of_succ_lt_succ hj')
                have hidx : i + 1 + j' = i + (j' + 1) := by omega
                rw [hidx, hc0] at hle
                exact hle
          · intro j' hj'
            exact absurd hj' (Nat.not_lt_zero j')
        · right
          refine ⟨j + 1, by simpa using Nat.succ_lt_succ hj, ?_, ?_, ?_, ?_⟩
          · rw [hr]
            omega
          · have hidx : i + 1 + j = i + (j + 1) := by omega
            rw [hidx, hc0] at hm
            exact lt_trans (by rw [← hc0]; exact hgt) hm
          · intro j' hj'
            have hidx : i + 1 + j = i + (j + 1) := by omega
            match j', hj' with
            | 0, _ =>
                rw [Nat.add_zero, ← hc0]
                rw [hidx] at hm
                exact le_of_lt hm
            | j' + 1, hj' =>
                have hle := hall j' (by simpa using Nat.lt_of_succ_lt_succ hj')
                have hidx' : i + 1 + j' = i + (j' + 1) := by omega
                rw [hidx', hidx] at hle
                exact hle
          · intro j' hj'
            have hidx : i + 1 + j = i + (j + 1) := by omega
            match j', hj' with
            | 0, _ =>
                rw [Nat.add_zero]
                rw [hidx] at hm
                refine lt_of_le_of_lt ?_ hm
                rw [hc0]
            | j' + 1, hj' =>
                have hlt := hfirst j' (Nat.lt_of_succ_lt_succ hj')
                have hidx' : i + 1 + j' = i + (j' + 1) := by omega
                rw [hidx', hidx] at hlt
                exact hlt
      · rw [if_neg hgt]
        rcases ih (i + 1) b m hshift with
          ⟨hr, hall⟩ | ⟨j, hj, hr, hm, hall, hfirst⟩
        · left
          refine ⟨hr, ?_⟩
          intro j hj
          match j, hj with
          | 0, _ =>
              rw [Nat.add_zero, ← hc0]
              exact le_of_not_lt hgt
          | j + 1, hj =>
              have hle := hall j (by simpa using Nat.lt_of_succ_lt_succ hj)
              have hidx : i + 1 + j = i + (j + 1) := by omega
              rw [hidx] at hle
              exact hle
        · right
          refine ⟨j + 1, by simpa using Nat.succ_lt_succ hj, ?_, ?_, ?_, ?_⟩
          · rw [hr]
            omega
          · have hidx : i + 1 + j = i + (j + 1) := by omega
            rw [hidx] at hm
            exact hm
          · intro j' hj'
            have hidx : i + 1 + j = i + (j + 1) := by omega
            match j', hj' with
            | 0, _ =>
                rw [Nat.add_zero]
                rw [hidx] at hm
                refine le_trans ?_ (le_of_lt hm)
                rw [← hc0]
                exact le_of_not_lt hgt
            | j' + 1, hj' =>
                have hle := hall j' (by simpa using Nat.lt_of_succ_lt_succ hj')
                have hidx' : i + 1 + j' = i + (j' + 1) := by omega
                rw [hidx', hidx] at hle
                exact hle
          · intro j' hj'
            have hidx : i + 1 + j = i + (j + 1) := by omega
            match j', hj' with
            | 0, _ =>
                rw [Nat.add_zero]
                rw [hidx] at hm
                exact lt_of_le_of_lt (by rw [← hc0]; exact le_of_not_lt hgt) hm
            | j' + 1, hj' =>
                have hlt := hfirst j' (Nat.lt_of_succ_lt_succ hj')
                have hidx' : i + 1 + j' = i + (j' + 1) := by omega
                rw [hidx', hidx] at hlt
                exact hlt

/-- C6: with at least one playable pair, `ai_move` scores each generated
child via `alpha_beta` with the per-level depth/heuristic pair (5/corner for
Easy, 6/center for Medium, 6/everywhere for Hard), window
`(isize::MIN, isize::MAX)` and the mover as maximizing player; each child's
comparison score is its raw score times 11 plus its noise value; the
returned node is the earliest child attaining the maximum comparison score.
The `hrange` hypothesis records that comparison scores are `isize` values,
hence at least `isize::MIN`. -/
theorem aiMove_selects_first_max (n : Morpion) (level : AILevel) (ns : Nat → Int)
    (hne : generateChildren n ≠ [])
    (hrange : ∀ k, k < (generateChildren n).length →
      isizeMIN ≤ 11 * levelScore n.player level ((generateChildren n).getD k n) + ns k) :
    ∃ k, k < (generateChildren n).length
      ∧ aiMove n level ns = (generateChildren n).getD k n
      ∧ (∀ j, j < (generateChildren n).length →
          11 * levelScore n.player level ((generateChildren n).getD j n) + ns j
            ≤ 11 * levelScore n.player level ((generateChildren n).getD k n) + ns k)
      ∧ (∀ j, j < k →
          11 * levelScore n.player level ((generateChildren n).getD j n) + ns j
            < 11 * levelScore n.player level ((generateChildren n).getD k n) + ns k) := by
  have hspec := selectLoop_spec (levelScore n.player level) ns
      (fun k => 11 * levelScore n.player level ((generateChildren n).getD k n) + ns k)
      (generateChildren n) 0 0 isizeMIN
      (fun j hj => by
        simp only [Nat.zero_add]
        rw [List.getD_eq_get (generateChildren n) n hj]
        ring)
  rcases hspec with ⟨hr, hall⟩ | ⟨j, hj, hr, _hm, hall, hfirst⟩
  · have hlen : 0 < (generateChildren n).length := List.length_pos.mpr hne
    refine ⟨0, hlen, ?_, ?_, fun j hj0 => absurd hj0 (Nat.not_lt_zero j)⟩
    · simp only [aiMove]
      rw [hr]
    · intro j hjl
      have h1 := hall j hjl
      simp only [Nat.zero_add] at h1
      have h2 := hrange 0 hlen
      exact le_trans h1 h2
  · refine ⟨j, hj, ?_, ?_, ?_⟩
    · simp only [aiMove]
      rw [hr, Nat.zero_add]
    · intro j' hj'
      have h1 := hall j' hj'
      simp only [Nat.zero_add] at h1
      exact h1
    · intro j' hj'
      have h1 := hfirst j' hj'
      simp only [Nat.zero_add] at h1
      exact h1

theorem aiMove_selects_first_max_witness :
    aiMove oneMoveNode AILevel.Easy (fun _ => 0) = playAt oneMoveNode 0 5 := by
  obtain ⟨k, hk, heq, -, -⟩ :=
    aiMove_selects_first_max oneMoveNode AILevel.Easy (fun _ => 0) (by decide)
      (fun k hk => by
        have hlen : (generateChildren oneMoveNode).length = 1 := by decide
        rw [hlen] at hk
        have hk0 : k = 0 := by omega
        subst hk0
        decide)
  have hlen : (generateChildren oneMoveNode).length = 1 := by decide
  rw [hlen] at hk
  have hk0 : k = 0 := by omega
  subst hk0
  rw [heq]
  decide

/-! ## C1: alpha-beta pruning versus plain minimax -/

theorem mmMaxLoop_ge_init (g : Morpion → Int) :
    ∀ (l : List Morpion) (v : Int), v ≤ mmMaxLoop g l v := by
  intro l
  induction l with
  | nil => intro v; exact le_refl v
  | cons c rest ih =>
      intro v
      exact le_trans (le_max_left v (g c)) (ih (max v (g c)))

theorem mmMaxLoop_le (g : Morpion → Int) (M : Int) :
    ∀ (l : List Morpion) (v : Int), v ≤ M → (∀ c ∈ l, g c ≤ M) →
      mmMaxLoop g l v ≤ M := by
  intro l
  induction l with
  | nil => intro v hv _; exact hv
  | cons c rest ih =>
      intro v hv hg
      exact ih (max v (g c)) (max_le hv (hg c (by simp)))
        (fun c' hc' => hg c' (by simp [hc']))

theorem mmMinLoop_le_init (g : Morpion → Int) :
    ∀ (l : List Morpion) (v : Int), mmMinLoop g l v ≤ v := by
  intro l
  induction l with
  | nil => intro v; exact le_refl v
  | cons c rest ih =>
      intro v
      exact le_trans (ih (min v (g c))) (min_le_left v (g c))

theorem mmMinLoop_ge (g : Morpion → Int) (M : Int) :
    ∀ (l : List Morpion) (v : Int), M ≤ v → (∀ c ∈ l, M ≤ g c) →
      M ≤ mmMinLoop g l v := by
  intro l
  induction l with
  | nil => intro v hv _; exact hv
  | cons c rest ih =>
      intro v hv hg
      exact ih (min v (g c)) (le_min hv (hg c (by simp)))
        (fun c' hc' => hg c' (by simp [hc']))

theorem abMaxLoop_ge_init (f : Morpion → Int → Int → Int) :
    ∀ (l : List Morpion) (a b v : Int), v ≤ abMaxLoop f l a b v := by
  intro l
  induction l with
  | nil => intro a b v; exact le_refl v
  | cons c rest ih =>
      intro a b v
      simp only [abMaxLoop]
      split_ifs with hbr
      · exact le_max_left v (f c a b)
      · exact le_trans (le_max_left v (f c a b))
          (ih (max a (max v (f c a b))) b (max v (f c a b)))

theorem abMaxLoop_le (f : Morpion → Int → Int → Int) (M : Int)
    (hf : ∀ c a b, f c a b ≤ M) :
    ∀ (l : List Morpion) (a b v : Int), v ≤ M → abMaxLoop f l a b v ≤ M := by
  intro l
  induction l with
  | nil => intro a b v hv; exact hv
  | cons c rest ih =>
      intro a b v hv
      simp only [abMaxLoop]
      split_ifs with hbr
      · exact max_le hv (hf c a b)
      · exact ih _ b _ (max_le hv (hf c a b))

theorem abMinLoop_le_init (f : Morpion → Int → Int → Int) :
    ∀ (l : List Morpion) (a b v : Int), abMinLoop f l a b v ≤ v := by
  intro l
  induction l with
  | nil => intro a b v; exact le_refl v
  | cons c rest ih =>
      intro a b v
      simp only [abMinLoop]
      split_ifs with hbr
      · exact min_le_left v (f c a b)
      · exact le_trans (ih a (min b (min v (f c a b))) (min v (f c a b)))
          (min_le_left v (f c a b))

theorem abMinLoop_ge (f : Morpion → Int → Int → Int) (M : Int)
    (hf : ∀ c a b, M ≤ f c a b) :
    ∀ (l : List Morpion) (a b v : Int), M ≤ v → M ≤ abMinLoop f l a b v := by
  intro l
  induction l with
  | nil => intro a b v hv; exact hv
  | cons c rest ih =>
      intro a b v hv
      simp only [abMinLoop]
      split_ifs with hbr
      · exact le_min hv (hf c a b)
      · exact ih a _ _ (le_min hv (hf c a b))

theorem isizeMIN_le_isizeMAX : isizeMIN ≤ isizeMAX := by decide

theorem minimaxScaled_bounds (m : Player) (h : Morpion → Player → Int) :
    ∀ d : Nat, HBound d m h → ∀ n : Morpion,
      isizeMIN ≤ minimaxScaled d n m h ∧ minimaxScaled d n m h ≤ isizeMAX := by
  intro d
  induction d with
  | zero =>
      intro hb n
      have hb0 := hb n 0 (le_refl 0)
      simpa [minimaxScaled] using hb0
  | succ d ih =>
      intro hb n
      have hb' : HBound d m h := fun n' k hk => hb n' k (Nat.le_succ_of_le hk)
      by_cases hterm : n.state ≠ PlayingState.Continue
      · simp only [minimaxScaled, if_pos hterm]
        have hbs := hb n (d + 1) (le_refl _)
        have hcast : (((d + 1 : Nat)) : Int) + 1 = (d : Int) + 1 + 1 := by
          push_cast
          ring
        rw [hcast] at hbs
        exact hbs
      · by_cases hpl : n.player = m
        · simp only [minimaxScaled, if_neg hterm, if_pos hpl]
          constructor
          · exact mmMaxLoop_ge_init _ _ _
          · exact mmMaxLoop_le _ isizeMAX _ _ isizeMIN_le_isizeMAX
              (fun c _ => (ih hb' c).2)
        · simp only [minimaxScaled, if_neg hterm, if_neg hpl]
          constructor
          · exact mmMinLoop_ge _ isizeMIN _ _ isizeMIN_le_isizeMAX
              (fun c _ => (ih hb' c).1)
          · exact le_trans (mmMinLoop_le_init _ _ _) (le_refl isizeMAX)

theorem alphaBeta_bounds (m : Player) (h : Morpion → Player → Int) :
    ∀ d : Nat, HBound d m h → ∀ (n : Morpion) (a b : Int),
      isizeMIN ≤ alphaBeta d n a b m h ∧ alphaBeta d n a b m h ≤ isizeMAX := by
  intro d
  induction d with
  | zero =>
      intro hb n a b
      have hb0 := hb n 0 (le_refl 0)
      simpa [alphaBeta] using hb0
  | succ d ih =>
      intro hb n a b
      have hb' : HBound d m h := fun n' k hk => hb n' k (Nat.le_succ_of_le hk)
      by_cases hterm : n.state ≠ PlayingState.Continue
      · simp only [alphaBeta, if_pos hterm]
        have hbs := hb n (d + 1) (le_refl _)
        have hcast : (((d + 1 : Nat)) : Int) + 1 = (d : Int) + 1 + 1 := by
          push_cast
          ring
        rw [hcast] at hbs
        exact hbs
      · by_cases hpl : n.player = m
        · simp only [alphaBeta, if_neg hterm, if_pos hpl]
          constructor
          · exact abMaxLoop_ge_init _ _ _ _ _
          · exact abMaxLoop_le _ isizeMAX
              (fun c a' b' => (ih hb' c a' b').2) _ _ _ _ isizeMIN_le_isizeMAX
        · simp only [alphaBeta, if_neg hterm, if_neg hpl]
          constructor
          · exact abMinLoop_ge _ isizeMIN
              (fun c a' b' => (ih hb' c a' b').1) _ _ _ _ isizeMIN_le_isizeMAX
          · exact abMinLoop_le_init _ _ _ _ _

/-- Fail-soft correctness of the maximizing alpha-beta loop against the plain
maximizing loop: a result strictly below `b` upper-bounds the true value, a
result strictly above `a` lower-bounds it.  `v`/`w` are the respective
accumulators, constrained by the incoming invariants. -/
theorem abMaxLoop_minimax (f : Morpion → Int → Int → Int) (g : Morpion → Int) :
    ∀ (l : List Morpion) (a b v w : Int),
      a ≤ b → isizeMIN ≤ a → b ≤ isizeMAX → v ≤ b →
      (v < b → w ≤ v) → (a < v → v ≤ w) →
      (∀ c ∈ l, ∀ a' b', a' ≤ b' → isizeMIN ≤ a' → b' ≤ isizeMAX →
        (f c a' b' < b' → g c ≤ f c a' b') ∧ (a' < f c a' b' → f c a' b' ≤ g c)) →
      (abMaxLoop f l a b v < b → mmMaxLoop g l w ≤ abMaxLoop f l a b v)
      ∧ (a < abMaxLoop f l a b v → abMaxLoop f l a b v ≤ mmMaxLoop g l w) := by
  intro l
  induction l with
  | nil =>
      intro a b v w _ _ _ _ inv1 inv2 _
      exact ⟨fun hlt => inv1 hlt, fun hgt => inv2 hgt⟩
  | cons c rest ih =>
      intro a b v w hab hmin hmax hvb inv1 inv2 hc
      have hcc := hc c (by simp) a b hab hmin hmax
      simp only [abMaxLoop, mmMaxLoop]
      by_cases hbr : b < max v (f c a b)
      · rw [if_pos hbr]
        constructor
        · intro hlt
          exact absurd hlt (not_lt.mpr (le_of_lt hbr))
        · intro _
          have hsv : max v (f c a b) = f c a b := by
            rcases max_cases v (f c a b) with ⟨hm1, _⟩ | ⟨hm1, _⟩
            · rw [hm1] at hbr
              exact absurd hbr (not_lt.mpr hvb)
            · rw [hm1]
          rw [hsv]
          rw [hsv] at hbr
          have hfg := hcc.2 (lt_of_le_of_lt hab hbr)
          exact le_trans hfg
            (le_trans (le_max_right w (g c)) (mmMaxLoop_ge_init g rest (max w (g c))))
      · rw [if_neg hbr]
        have hv'b : max v (f c a b) ≤ b := not_lt.mp hbr
        have hinv1 : max v (f c a b) < b → max w (g c) ≤ max v (f c a b) := by
          intro hlt
          apply max_le
          · exact le_trans (inv1 (lt_of_le_of_lt (le_max_left v _) hlt))
              (le_max_left v _)
          · exact le_trans (hcc.1 (lt_of_le_of_lt (le_max_right v _) hlt))
              (le_max_right v _)
        have hinv2 : max a (max v (f c a b)) < max v (f c a b) →
            max v (f c a b) ≤ max w (g c) := by
          intro hlt
          exact absurd hlt (not_lt.mpr (le_max_right a _))
        obtain ⟨ih1, ih2⟩ := ih (max a (max v (f c a b))) b (max v (f c a b))
          (max w (g c)) (max_le hab hv'b) (le_trans hmin (le_max_left a _)) hmax
          hv'b hinv1 hinv2 (fun c' hc' => hc c' (by simp [hc']))
        refine ⟨ih1, ?_⟩
        intro har
        by_cases har2 : max a (max v (f c a b))
            < abMaxLoop f rest (max a (max v (f c a b))) b (max v (f c a b))
        · exact ih2 har2
        · have hv'r := abMaxLoop_ge_init f rest (max a (max v (f c a b))) b
            (max v (f c a b))
          have hrmax := not_lt.mp har2
          have hveq : abMaxLoop f rest (max a (max v (f c a b))) b (max v (f c a b))
              = max v (f c a b) := by
            rcases max_cases a (max v (f c a b)) with ⟨hm1, _⟩ | ⟨hm1, _⟩
            · exact absurd har (not_lt.mpr (le_trans hrmax (le_of_eq hm1)))
            · exact le_antisymm (le_trans hrmax (le_of_eq hm1)) hv'r
          rw [hveq]
          rw [hveq] at har
          apply max_le
          · by_cases hav : a < v
            · exact le_trans (inv2 hav)
                (le_trans (le_max_left w _) (mmMaxLoop_ge_init g rest _))
            · have hva := not_lt.mp hav
              rcases max_cases v (f c a b) with ⟨hm1, _⟩ | ⟨hm1, hm2⟩
              · rw [hm1] at har
                exact absurd har (not_lt.mpr hva)
              · rw [hm1] at har
                have hfg := hcc.2 har
                exact le_trans (le_of_lt hm2)
                  (le_trans hfg (le_trans (le_max_right w _) (mmMaxLoop_ge_init g rest _)))
          · by_cases haf : a < f c a b
            · exact le_trans (hcc.2 haf)
                (le_trans (le_max_right w _) (mmMaxLoop_ge_init g rest _))
            · have hfa := not_lt.mp haf
              rcases max_cases v (f c a b) with ⟨hm1, _⟩ | ⟨hm1, _⟩
              · rw [hm1] at har
                exact le_trans hfa
                  (le_trans (le_of_lt har)
                    (le_trans (inv2 har)
                      (le_trans (le_max_left w _) (mmMaxLoop_ge_init g rest _))))
              · rw [hm1] at har
                exact absurd har (not_lt.mpr hfa)

/-- Fail-soft correctness of the minimizing alpha-beta loop against the plain
minimizing loop, mirror image of `abMaxLoop_minimax`. -/
theorem abMinLoop_minimax (f : Morpion → Int → Int → Int) (g : Morpion → Int) :
    ∀ (l : List Morpion) (a b v w : Int),
      a ≤ b → isizeMIN ≤ a → b ≤ isizeMAX → a ≤ v →
      (v < b → w ≤ v) → (a < v → v ≤ w) →
      (∀ c ∈ l, ∀ a' b', a' ≤ b' → isizeMIN ≤ a' → b' ≤ isizeMAX →
        (f c a' b' < b' → g c ≤ f c a' b') ∧ (a' < f c a' b' → f c a' b' ≤ g c)) →
      (abMinLoop f l a b v < b → mmMinLoop g l w ≤ abMinLoop f l a b v)
      ∧ (a < abMinLoop f l a b v → abMinLoop f l a b v ≤ mmMinLoop g l w) := by
  intro l
  induction l with
  | nil =>
      intro a b v w _ _ _ _ inv1 inv2 _
      exact ⟨fun hlt => inv1 hlt, fun hgt => inv2 hgt⟩
  | cons c rest ih =>
      intro a b v w hab hmin hmax hav inv1 inv2 hc
      have hcc := hc c (by simp) a b hab hmin hmax
      simp only [abMinLoop, mmMinLoop]
      by_cases hbr : min v (f c a b) < a
      · rw [if_pos hbr]
        constructor
        · intro _
          have hsv : min v (f c a b) = f c a b := by
            rcases min_cases v (f c a b) with ⟨hm1, _⟩ | ⟨hm1, _⟩
            · rw [hm1] at hbr
              exact absurd hbr (not_lt.mpr hav)
            · rw [hm1]
          rw [hsv]
          rw [hsv] at hbr
          have hgf := hcc.1 (lt_of_lt_of_le hbr hab)
          exact le_trans (mmMinLoop_le_init g rest (min w (g c)))
            (le_trans (min_le_right w (g c)) hgf)
        · intro hgt
          exact absurd hgt (not_lt.mpr (le_of_lt hbr))
      · rw [if_neg hbr]
        have hav' : a ≤ min v (f c a b) := not_lt.mp hbr
        have hinv1 : min v (f c a b) < min b (min v (f c a b)) →
            min w (g c) ≤ min v (f c a b) := by
          intro hlt
          exact absurd hlt (not_lt.mpr (min_le_right b _))
        have hinv2 : a < min v (f c a b) → min v (f c a b) ≤ min w (g c) := by
          intro hlt
          apply le_min
          · exact le_trans (min_le_left v _)
              (inv2 (lt_of_lt_of_le hlt (min_le_left v _)))
          · exact le_trans (min_le_right v _)
              (hcc.2 (lt_of_lt_of_le hlt (min_le_right v _)))
        obtain ⟨ih1, ih2⟩ := ih a (min b (min v (f c a b))) (min v (f c a b))
          (min w (g c)) (le_min hab hav') hmin
          (le_trans (min_le_left b _) hmax) hav' hinv1 hinv2
          (fun c' hc' => hc c' (by simp [hc']))
        refine ⟨?_, ih2⟩
        intro hrb
        by_cases hrb2 : abMinLoop f rest a (min b (min v (f c a b))) (min v (f c a b))
            < min b (min v (f c a b))
        · exact ih1 hrb2
        · have hrv' := abMinLoop_le_init f rest a (min b (min v (f c a b)))
            (min v (f c a b))
          have hrmin := not_lt.mp hrb2
          have hveq : abMinLoop f rest a (min b (min v (f c a b))) (min v (f c a b))
              = min v (f c a b) := by
            rcases min_cases b (min v (f c a b)) with ⟨hm1, _⟩ | ⟨hm1, _⟩
            · exact absurd hrb (not_lt.mpr (le_trans (le_of_eq hm1.symm) hrmin))
            · exact le_antisymm hrv' (le_trans (le_of_eq hm1.symm) hrmin)
          rw [hveq] at hrb
          refine le_trans ?_ (le_of_eq hveq.symm)
          rcases min_cases v (f c a b) with ⟨hm2, hm3⟩ | ⟨hm2, hm3⟩
          · rw [hm2]
            rw [hm2] at hrb
            exact le_trans (mmMinLoop_le_init g rest (min w (g c)))
              (le_trans (min_le_left w _) (inv1 hrb))
          · rw [hm2]
            rw [hm2] at hrb
            exact le_trans (mmMinLoop_le_init g rest (min w (g c)))
              (le_trans (min_le_right w _) (hcc.1 hrb))

/-- Fail-soft window property of `alpha_beta` against the scaled minimax, by
induction on depth. -/
theorem alphaBeta_minimaxScaled_bound (m : Player) (h : Morpion → Player → Int) :
    ∀ (d : Nat) (n : Morpion) (a b : Int), a ≤ b → isizeMIN ≤ a → b ≤ isizeMAX →
      (alphaBeta d n a b m h < b → minimaxScaled d n m h ≤ alphaBeta d n a b m h)
      ∧ (a < alphaBeta d n a b m h → alphaBeta d n a b m h ≤ minimaxScaled d n m h) := by
  intro d
  induction d with
  | zero =>
      intro n a b _ _ _
      constructor <;> intro _ <;> exact le_of_eq rfl
  | succ d ih =>
      intro n a b hab hmin hmax
      by_cases hterm : n.state ≠ PlayingState.Continue
      · simp only [alphaBeta, minimaxScaled, if_pos hterm]
        constructor <;> intro _ <;> exact le_of_eq rfl
      · by_cases hpl : n.player = m
        · simp only [alphaBeta, minimaxScaled, if_neg hterm, if_pos hpl]
          exact abMaxLoop_minimax _ _ (generateChildren n) a b isizeMIN isizeMIN
            hab hmin hmax (le_trans hmin hab)
            (fun _ => le_refl isizeMIN)
            (fun hlt => absurd hlt (not_lt.mpr hmin))
            (fun c _ a' b' hab' hmin' hmax' => ih c a' b' hab' hmin' hmax')
        · simp only [alphaBeta, minimaxScaled, if_neg hterm, if_neg hpl]
          exact abMinLoop_minimax _ _ (generateChildren n) a b isizeMAX isizeMAX
            hab hmin hmax (le_trans hab hmax)
            (fun hlt => absurd hlt (not_lt.mpr hmax))
            (fun _ => le_refl isizeMAX)
            (fun c _ a' b' hab' hmin' hmax' => ih c a' b' hab' hmin' hmax')

/-- C1 counterexample: on a terminal node at depth 1 with the center
heuristic, `alpha_beta` returns double what `minimax` returns, because its
cutoff scales the heuristic by `(depth + 1)`. -/
theorem alphaBeta_ne_minimax_at_wonNode :
    alphaBeta 1 wonNode isizeMIN isizeMAX Player.X centerHeuristic
      ≠ minimax 1 wonNode Player.X centerHeuristic := by
  decide

/-- C1 (amended): with the full window `(isize::MIN, isize::MAX)`,
`alpha_beta` computes exactly the value of plain minimax whose cutoff
carries the same `heuristic * (depth + 1)` scaling: pruning never changes
the returned result.  The `hb` hypothesis records that the scaled heuristic
stays within `isize` range (automatic in Rust by typing). -/
theorem alphaBeta_eq_minimaxScaled (n : Morpion) (d : Nat) (m : Player)
    (h : Morpion → Player → Int) (hb : HBound d m h) :
    alphaBeta d n isizeMIN isizeMAX m h = minimaxScaled d n m h := by
  obtain ⟨habL, habU⟩ := alphaBeta_bounds m h d hb n isizeMIN isizeMAX
  obtain ⟨hmmL, hmmU⟩ := minimaxScaled_bounds m h d hb n
  obtain ⟨h1, h2⟩ := alphaBeta_minimaxScaled_bound m h d n isizeMIN isizeMAX
    isizeMIN_le_isizeMAX (le_refl _) (le_refl _)
  rcases lt_or_eq_of_le habU with hltMAX | heqMAX
  · have hle1 := h1 hltMAX
    rcases lt_or_eq_of_le habL with hgtMIN | heqMIN
    · exact le_antisymm (h2 hgtMIN) hle1
    · exact le_antisymm (by rw [← heqMIN]; exact hmmL) hle1
  · have hgtMIN : isizeMIN < alphaBeta d n isizeMIN isizeMAX m h := by
      rw [heqMAX]
      exact lt_of_lt_of_le (by decide) (le_refl isizeMAX)
    exact le_antisymm (h2 hgtMIN) (by rw [heqMAX]; exact hmmU)

theorem alphaBeta_eq_minimaxScaled_witness :
    alphaBeta 1 Morpion.new isizeMIN isizeMAX Player.X (fun _ _ => 0)
      = minimaxScaled 1 Morpion.new Player.X (fun _ _ => 0) :=
  alphaBeta_eq_minimaxScaled Morpion.new 1 Player.X (fun _ _ => 0)
    (fun n k _ => by constructor <;> norm_num [isizeMIN, isizeMAX])
